import Mathlib

/-!
Verification of the streaming scan engine of the ucsbdatathon26 repository:
the vectorized existence predicate (test_opinions_check.py), the filter /
count driver (count.py) and the materializing writer (otherscript.py),
shallowly embedded as executable Lean definitions.
-/

namespace Datathon

/-! ## Existence predicate (test_opinions_check.py, has_valid_opinion_text)

The source obtains, for a chunk of the nested "opinions" list-of-struct
column: the list-validity bitmap, the offsets array (length n+1), and the
validity bitmap of the flattened child field "opinion_text".  It builds an
exclusive prefix sum over the flat validity, takes per-row range sums via
the offsets, and ANDs row_sums > 0 with the list validity. -/

/-- Exclusive prefix sum of a 0/1 validity vector, as in
cumsum[k] = sum of the first k entries of text_valid. -/
def csum (v : List Bool) (k : Nat) : Nat :=
  ((v.take k).filter (fun b => b)).length

/-- row_sums[i] = cumsum[offsets[i+1]] - cumsum[offsets[i]]. -/
def rowSum (textValid : List Bool) (offsets : List Nat) (i : Nat) : Nat :=
  csum textValid (offsets.getD (i + 1) 0) - csum textValid (offsets.getD i 0)

/-- Embeds has_valid_opinion_text: the returned vector is
pc.and_(pc.is_valid(opinions), row_sums > 0), one entry per row. -/
def hasValidOpinionText (listValid : List Bool) (offsets : List Nat)
    (textValid : List Bool) : List Bool :=
  (List.range listValid.length).map
    (fun i => listValid.getD i false && decide (0 < rowSum textValid offsets i))

/-! ## Scalar per-row reference (count.py lines 98-105, count_st.py lines 34-38)

A row of the nested column is None, or a list of child records each carrying
a nullable opinion_text field.  The reference loop keeps row i iff
ops is truthy and some child has a non-null opinion_text. -/

/-- One row of the nested opinions column: null, or a list of children,
each child represented by its nullable opinion_text field. -/
abbrev OpinionRow := Option (List (Option String))

/-- Embeds the scalar test: ops and any(op.get("opinion_text") is not None
for op in ops).  A null row and an empty list are both falsy. -/
def scalarHasOpinion (row : OpinionRow) : Bool :=
  match row with
  | none => false
  | some ops => ops.any (fun op => op.isSome)

/-- The children of a row as stored in the flattened values array:
a null row contributes no children. -/
def childTexts (row : OpinionRow) : List (Option String) :=
  row.getD []

/-- The flattened child opinion_text values of a batch, in row order. -/
def flatTexts (rows : List OpinionRow) : List (Option String) :=
  (rows.map childTexts).flatten

/-- The offsets array of the nested column: offsets[i] is the number of
children contributed by rows before row i; length rows+1. -/
def offsetsOf (rows : List OpinionRow) : List Nat :=
  (List.range (rows.length + 1)).map (fun i => (flatTexts (rows.take i)).length)

/-- pc.is_valid over the list column. -/
def listValidOf (rows : List OpinionRow) : List Bool :=
  rows.map Option.isSome

/-- pc.is_valid over the flattened opinion_text child field. -/
def textValidOf (rows : List OpinionRow) : List Bool :=
  (flatTexts rows).map Option.isSome

/-! ## Masks and predicates (count.py lines 71-95)

pc.and_ is the null-propagating logical AND of pyarrow; a mask entry is a
nullable boolean; table.filter keeps rows whose entry is true and drops
rows with a null entry. -/

/-- pc.and_ on nullable booleans: null if either input is null. -/
def optAnd : Option Bool → Option Bool → Option Bool
  | some a, some b => some (a && b)
  | _, _ => none

/-- The combined mask of count.py: starts as None; the first predicate
becomes the mask, each further predicate is conjoined with pc.and_,
elementwise over the batch. -/
def combinedMask {α : Type} (preds : List (α → Option Bool)) (rows : List α) :
    Option (List (Option Bool)) :=
  match preds with
  | [] => none
  | p :: ps =>
    some (ps.foldl (fun acc q => List.zipWith optAnd acc (rows.map q))
      (rows.map p))

/-- table.filter(mask): with no mask the batch passes through; otherwise a
row survives iff its mask entry is true (null entries are dropped). -/
def applyMask {α : Type} (rows : List α) (m : Option (List (Option Bool))) :
    List α :=
  match m with
  | none => rows
  | some mv => ((rows.zip mv).filter (fun rm => rm.2 == some true)).map
      (fun rm => rm.1)

/-! ## Dates and the range (>=) predicate (count.py lines 84-92) -/

/-- A calendar date as handled by datetime.date. -/
structure CalDate where
  y : Nat
  m : Nat
  d : Nat
deriving DecidableEq, Repr

/-- datetime.date ordering: lexicographic on (year, month, day). -/
def dateLe (a b : CalDate) : Bool :=
  decide (a.y < b.y) ||
    (a.y == b.y && (decide (a.m < b.m) ||
      (a.m == b.m && decide (a.d ≤ b.d))))

/-- A cell of a scanned column: a date or a text value. -/
inductive CellVal where
  | dateV (d : CalDate)
  | textV (s : String)
deriving DecidableEq, Repr

/-- pc.greater_equal on strings: lexicographic text comparison. -/
def strGe (s v : String) : Bool := !(decide (s < v))

/-- Heterogeneous >= of a cell against a comparison operand; comparing a
cell against an operand of the other kind is outside the scanned data's
well-typed uses and is modelled as false. -/
def cmpGe : CellVal → CellVal → Bool
  | .dateV a, .dateV b => dateLe b a
  | .textV a, .textV b => strGe a b
  | .dateV _, .textV _ => false
  | .textV _, .dateV _ => false

/-- Value of a decimal digit character. -/
def digitVal (c : Char) : Nat := c.toNat - 48

/-- Gregorian leap-year rule, as datetime uses. -/
def isLeap (y : Nat) : Bool :=
  (y % 4 == 0 && decide (y % 100 ≠ 0)) || y % 400 == 0

/-- Days in a month of a given year. -/
def daysInMonth (y m : Nat) : Nat :=
  if m = 2 then (if isLeap y then 29 else 28)
  else if m = 4 ∨ m = 6 ∨ m = 9 ∨ m = 11 then 30
  else 31

/-- datetime.date.fromisoformat in its YYYY-MM-DD form: exactly ten
characters, four digits, a dash, two digits, a dash, two digits, denoting
a real calendar date with year at least 1; anything else is None
(the ValueError branch of count.py line 90). -/
def parseIsoDate (s : String) : Option CalDate :=
  match s.toList with
  | [y1, y2, y3, y4, s1, m1, m2, s2, d1, d2] =>
    if y1.isDigit && y2.isDigit && y3.isDigit && y4.isDigit && s1 == '-'
        && m1.isDigit && m2.isDigit && s2 == '-' && d1.isDigit && d2.isDigit
    then
      let y := 1000 * digitVal y1 + 100 * digitVal y2 + 10 * digitVal y3
        + digitVal y4
      let m := 10 * digitVal m1 + digitVal m2
      let d := 10 * digitVal d1 + digitVal d2
      if 1 ≤ y ∧ 1 ≤ m ∧ m ≤ 12 ∧ 1 ≤ d ∧ d ≤ daysInMonth y m then
        some ⟨y, m, d⟩
      else none
    else none
  | _ => none

/-- The date branch of the >= predicate: pc.and_(pc.is_valid(col),
pc.greater_equal(col, parsed_date)) (count.py lines 88-89). -/
def dateBranch (cell : Option CellVal) (d : CalDate) : Option Bool :=
  optAnd (some cell.isSome) (cell.map (fun x => cmpGe x (.dateV d)))

/-- The text fallback branch: pc.greater_equal(col, raw_text)
(count.py line 91). -/
def textBranch (cell : Option CellVal) (v : String) : Option Bool :=
  cell.map (fun x => cmpGe x (.textV v))

/-- The >= predicate's mask entry for one cell: date comparison when the
operand parses as an ISO date, text comparison otherwise. -/
def gteCondEntry (cell : Option CellVal) (v : String) : Option Bool :=
  match parseIsoDate v with
  | some d => dateBranch cell d
  | none => textBranch cell v

/-- One column's cells after the >= predicate and table.filter: survivors
are exactly the cells whose mask entry is true. -/
def filterGte (cells : List (Option CellVal)) (v : String) :
    List (Option CellVal) :=
  cells.filter (fun c => gteCondEntry c v == some true)

/-! ## Scan accumulator (count.py lines 59-107) -/

/-- The mutable counters of the scan loop. -/
structure ScanState where
  scanned : Nat
  matched : Nat
deriving DecidableEq, Repr

/-- The rows of one batch surviving the combined mask and, when
has_opinion is set, the per-row opinion check (count.py lines 94-105). -/
def survivors {α : Type} (m : Option (List (Option Bool))) (hasOp : Bool)
    (check : α → Bool) (batch : List α) : List α :=
  let t1 := applyMask batch m
  if hasOp then t1.filter check else t1

/-- One iteration of the batch loop: total_rows += len(table) before
filtering, matched_rows += len(table) after filtering. -/
def stepCount {α : Type} (m : List α → Option (List (Option Bool)))
    (hasOp : Bool) (check : α → Bool) (s : ScanState) (batch : List α) :
    ScanState :=
  { scanned := s.scanned + batch.length
    matched := s.matched + (survivors (m batch) hasOp check batch).length }

/-- The whole scan: fold the batch step over the batches from zeroed
counters. -/
def runCount {α : Type} (m : List α → Option (List (Option Bool)))
    (hasOp : Bool) (check : α → Bool) (batches : List (List α)) : ScanState :=
  batches.foldl (stepCount m hasOp check) ⟨0, 0⟩

/-! ## Group-by histograms (count.py lines 109-115 and 136-141) -/

/-- A Python dict used as a counter, kept in insertion order: the first
occurrence of a key appends it with count 1; later occurrences bump the
stored count in place. -/
def bump : List (String × Nat) → String → List (String × Nat)
  | [], k => [(k, 1)]
  | (k', c) :: t, k =>
    if k' = k then (k', c + 1) :: t else (k', c) :: bump t k

/-- str(val): a null value renders as the literal sentinel "None". -/
def render (v : Option String) : String :=
  match v with
  | none => "None"
  | some s => s

/-- Accumulating the surviving column values of one batch into a
histogram. -/
def accumulate (h : List (String × Nat)) (vs : List (Option String)) :
    List (String × Nat) :=
  vs.foldl (fun acc v => bump acc (render v)) h

/-- The total count a histogram assigns to key k. -/
def lookupCount (h : List (String × Nat)) (k : String) : Nat :=
  ((h.filter (fun p => p.1 == k)).map (fun p => p.2)).sum

/-- Stable insertion for the descending-by-count sort: an element passes
entries with strictly greater count and stops before the first entry whose
count is not greater, so earlier entries with equal count stay in front. -/
def insertDesc (a : String × Nat) : List (String × Nat) → List (String × Nat)
  | [] => [a]
  | b :: l => if a.2 < b.2 then b :: insertDesc a l else a :: b :: l

/-- sorted(counts.items(), key = negated count): Python's sorted is a
stable sort, embedded as a stable insertion sort, folded from the right so
each element is inserted into the sorted tail. -/
def sortCountsDesc (l : List (String × Nat)) : List (String × Nat) :=
  l.foldr insertDesc []

/-! ## Argument parsing (count.py lines 36-50) -/

/-- The classification of one argument token. -/
inductive Parsed where
  | hasOpinionFlag
  | notNull (col : String)
  | gte (col val : String)
  | eqF (col val : String)
  | groupBy (col : String)
  | discarded
deriving DecidableEq, Repr

/-- Split a character list at the first occurrence of the pattern, as
Python's s.split(pat, 1); None when the pattern does not occur. -/
def splitOnFirst (pat : List Char) : List Char → Option (List Char × List Char)
  | [] => if pat.isPrefixOf ([] : List Char) then some ([], []) else none
  | c :: rest =>
    if pat.isPrefixOf (c :: rest) then some ([], (c :: rest).drop pat.length)
    else (splitOnFirst pat rest).map (fun pr => (c :: pr.1, pr.2))

/-- Python's str.upper() on the ASCII tokens the parser sees. -/
def strUpper (s : String) : String := String.mk (s.data.map Char.toUpper)

/-- The token classifier of count.py lines 36-50: the flag first, then the
substring tests in order "!=", ">=", "=", else a group-by column.  A "!="
token whose right side does not upper-case to NULL falls through the if
with no effect: it is discarded. -/
def parseArg (arg : String) : Parsed :=
  if arg = "--has-opinion" then .hasOpinionFlag
  else
    match splitOnFirst ['!', '='] arg.toList with
    | some (k, v) =>
      if strUpper (String.mk v) = "NULL" then .notNull (String.mk k)
      else .discarded
    | none =>
      match splitOnFirst ['>', '='] arg.toList with
      | some (k, v) => .gte (String.mk k) (String.mk v)
      | none =>
        match splitOnFirst ['='] arg.toList with
        | some (k, v) => .eqF (String.mk k) (String.mk v)
        | none => .groupBy arg

/-- The parsed filter specification accumulated over the argument list. -/
structure FilterSpec where
  eqs : List (String × String)
  notNulls : List String
  gtes : List (String × String)
  groups : List String
  hasOpinion : Bool
deriving DecidableEq, Repr

/-- Python dict assignment d[k] = v on an insertion-ordered dict. -/
def setKV : List (String × String) → String → String → List (String × String)
  | [], k, v => [(k, v)]
  | (k', v') :: t, k, v =>
    if k' = k then (k, v) :: t else (k', v') :: setKV t k v

/-- The effect of one classified token on the filter spec. -/
def applyParsed (st : FilterSpec) : Parsed → FilterSpec
  | .hasOpinionFlag => { st with hasOpinion := true }
  | .notNull c => { st with notNulls := st.notNulls ++ [c] }
  | .gte c v => { st with gtes := setKV st.gtes c v }
  | .eqF c v => { st with eqs := setKV st.eqs c v }
  | .groupBy c => { st with groups := st.groups ++ [c] }
  | .discarded => st

/-- The spec before any argument is seen. -/
def emptySpec : FilterSpec := ⟨[], [], [], [], false⟩

/-- The whole argument loop of count.py lines 36-50. -/
def parseArgs (args : List String) : FilterSpec :=
  args.foldl (fun st a => applyParsed st (parseArg a)) emptySpec

/-! ## Output sink (otherscript.py lines 42-74) -/

/-- The writer state: none is Uninitialized, some schema is Open with that
schema fixed at open time; written records the appended batches in
order. -/
structure SinkState (σ α : Type) where
  writer : Option σ
  written : List (List α)
deriving DecidableEq, Repr

/-- One batch through the sink: an empty surviving subset is skipped
(the two continue sites); otherwise the writer is opened on first use with
the current subset's schema, and the subset is appended. -/
def sinkStep {β σ α : Type} (surv : β → List α) (schemaOf : β → σ)
    (st : SinkState σ α) (b : β) : SinkState σ α :=
  let s := surv b
  if s.isEmpty then st
  else
    match st.writer with
    | none => { writer := some (schemaOf b), written := st.written ++ [s] }
    | some sch => { writer := some sch, written := st.written ++ [s] }

/-- The whole write loop from the initial writer = None state. -/
def runSink {β σ α : Type} (surv : β → List α) (schemaOf : β → σ)
    (bs : List β) : SinkState σ α :=
  bs.foldl (sinkStep surv schemaOf) ⟨none, []⟩

/-! ## Prefix-sum lemmas -/

theorem csum_succ (v : List Bool) (k : Nat) :
    csum v (k + 1) = csum v k + (if v.getD k false then 1 else 0) := by
  rw [csum, csum, List.take_succ, List.filter_append, List.length_append,
    List.getD_eq_getElem?_getD]
  cases h : v[k]? with
  | none => simp
  | some b => cases b <;> simp

theorem csum_mono (v : List Bool) {a b : Nat} (h : a ≤ b) :
    csum v a ≤ csum v b := by
  induction b with
  | zero => simpa using Nat.le_antisymm h (Nat.zero_le a) ▸ Nat.le_refl _
  | succ b ih =>
    rcases Nat.lt_or_ge a (b + 1) with hlt | hge
    · have := ih (Nat.lt_succ_iff.mp hlt)
      rw [csum_succ]
      omega
    · have : a = b + 1 := Nat.le_antisymm h hge
      subst this
      exact Nat.le_refl _

theorem csum_sub_pos_iff (v : List Bool) (a b : Nat) :
    0 < csum v b - csum v a ↔
      ∃ j, a ≤ j ∧ j < b ∧ v.getD j false = true := by
  induction b with
  | zero =>
    simp only [csum, List.take_zero, List.filter_nil, List.length_nil]
    omega
  | succ b ih =>
    rcases Nat.lt_or_ge b a with hba | hab
    · have h1 : csum v (b + 1) ≤ csum v a := csum_mono v hba
      constructor
      · omega
      · rintro ⟨j, hj1, hj2, _⟩; omega
    · have h1 : csum v a ≤ csum v b := csum_mono v hab
      rw [csum_succ]
      by_cases hb : v.getD b false
      · simp only [hb, if_pos]
        constructor
        · intro _; exact ⟨b, hab, Nat.lt_succ_self b, hb⟩
        · intro _; omega
      · simp only [hb, if_neg, Bool.false_eq_true, not_false_iff, Nat.add_zero]
        rw [ih]
        constructor
        · rintro ⟨j, h1, h2, h3⟩; exact ⟨j, h1, Nat.lt_succ_of_lt h2, h3⟩
        · rintro ⟨j, h1, h2, h3⟩
          refine ⟨j, h1, ?_, h3⟩
          rcases Nat.lt_succ_iff_lt_or_eq.mp h2 with h | h
          · exact h
          · subst h; exact absurd h3 hb

theorem hasValidOpinionText_length (lv : List Bool) (off : List Nat)
    (tv : List Bool) : (hasValidOpinionText lv off tv).length = lv.length := by
  simp [hasValidOpinionText]

theorem hasValidOpinionText_getD (lv : List Bool) (off : List Nat)
    (tv : List Bool) {i : Nat} (hi : i < lv.length) :
    (hasValidOpinionText lv off tv).getD i false
      = (lv.getD i false && decide (0 < rowSum tv off i)) := by
  rw [hasValidOpinionText, List.getD_eq_getElem?_getD, List.getElem?_map,
    List.getElem?_range hi]
  rfl

/-- C1: for every nested batch (list validity, offsets of length rows+1,
flattened target-field validity), the existence predicate returns a vector
of length = row count whose entry i is true iff row i's list is non-null
and some flat index j in [offsets[i], offsets[i+1]) has a valid target
field; and on the concrete five-row example with offsets [0,2,2,3,5,5] and
flat validity [T,F,F,T,T] it returns [T,F,F,T,F]. -/
theorem existence_predicate_correct :
    (∀ (lv : List Bool) (off : List Nat) (tv : List Bool),
        off.length = lv.length + 1 →
        (hasValidOpinionText lv off tv).length = lv.length ∧
        ∀ i, i < lv.length →
          ((hasValidOpinionText lv off tv).getD i false = true ↔
            (lv.getD i false = true ∧
             ∃ j, off.getD i 0 ≤ j ∧ j < off.getD (i + 1) 0 ∧
               tv.getD j false = true)))
    ∧ hasValidOpinionText [true, true, true, true, true] [0, 2, 2, 3, 5, 5]
        [true, false, false, true, true]
        = [true, false, false, true, false] := by
  constructor
  · intro lv off tv _
    refine ⟨hasValidOpinionText_length lv off tv, ?_⟩
    intro i hi
    rw [hasValidOpinionText_getD lv off tv hi, Bool.and_eq_true,
      decide_eq_true_iff, rowSum, csum_sub_pos_iff]
  · decide

theorem existence_predicate_correct_witness :
    (hasValidOpinionText [true, true, true, true, true] [0, 2, 2, 3, 5, 5]
        [true, false, false, true, true]).getD 0 false = true ↔
      ([true, true, true, true, true].getD 0 false = true ∧
       ∃ j, ([0, 2, 2, 3, 5, 5] : List Nat).getD 0 0 ≤ j ∧
         j < ([0, 2, 2, 3, 5, 5] : List Nat).getD 1 0 ∧
         [true, false, false, true, true].getD j false = true) :=
  (existence_predicate_correct.1 [true, true, true, true, true]
    [0, 2, 2, 3, 5, 5] [true, false, false, true, true] (by decide)).2 0
    (by decide)

/-! ## Equivalence of the vectorized and the scalar existence check -/

theorem flatten_segment_any {α : Type} (p : α → Bool) :
    ∀ (ls : List (List α)) (i : Nat), i < ls.length →
      ((∃ j, ((ls.take i).flatten).length ≤ j ∧
          j < ((ls.take (i + 1)).flatten).length ∧
          ((ls.flatten).map p).getD j false = true)
        ↔ (ls.getD i []).any p = true) := by
  intro ls
  induction ls with
  | nil => intro i hi; simp at hi
  | cons l t ih =>
    intro i hi
    cases i with
    | zero =>
      simp only [List.take_zero, List.flatten_nil, List.length_nil,
        List.take_succ_cons, List.flatten_cons, List.append_nil,
        List.map_append, List.getD_cons_zero, Nat.zero_le, true_and]
      constructor
      · rintro ⟨j, hj, hget⟩
        rw [List.getD_append _ _ _ _ (by simpa using hj),
          List.getD_eq_getElem _ _ (by simpa using hj)] at hget
        rw [List.any_eq_true]
        exact ⟨l[j], List.getElem_mem _, by simpa using hget⟩
      · intro hany
        rw [List.any_eq_true] at hany
        obtain ⟨x, hx, hpx⟩ := hany
        obtain ⟨j, hj, rfl⟩ := List.mem_iff_getElem.mp hx
        refine ⟨j, hj, ?_⟩
        rw [List.getD_append _ _ _ _ (by simpa using hj),
          List.getD_eq_getElem _ _ (by simpa using hj)]
        simpa using hpx
    | succ i =>
      have hit : i < t.length := by simpa using hi
      simp only [List.take_succ_cons, List.flatten_cons, List.length_append,
        List.map_append, List.getD_cons_succ]
      constructor
      · rintro ⟨j, hj1, hj2, hget⟩
        have hlen : l.length ≤ j := Nat.le_trans (Nat.le_add_right _ _) hj1
        rw [List.getD_append_right _ _ _ _ (by simpa using hlen)] at hget
        refine (ih i hit).mp ⟨j - l.length, ?_, ?_, ?_⟩
        · omega
        · omega
        · simpa using hget
      · intro hany
        obtain ⟨j, hj1, hj2, hget⟩ := (ih i hit).mpr hany
        refine ⟨l.length + j, by omega, by omega, ?_⟩
        rw [List.getD_append_right _ _ _ _ (by simp)]
        simpa using hget

theorem scalarHasOpinion_eq (row : OpinionRow) :
    scalarHasOpinion row
      = (row.isSome && (childTexts row).any (fun op => op.isSome)) := by
  cases row <;> simp [scalarHasOpinion, childTexts]

theorem offsetsOf_getD (rows : List OpinionRow) {i : Nat}
    (hi : i < rows.length + 1) :
    (offsetsOf rows).getD i 0 = (flatTexts (rows.take i)).length := by
  rw [offsetsOf, List.getD_eq_getElem _ _ (by simpa using hi),
    List.getElem_map, List.getElem_range]

theorem rowSum_pos_iff (rows : List OpinionRow) {i : Nat}
    (hi : i < rows.length) :
    (0 < rowSum (textValidOf rows) (offsetsOf rows) i) ↔
      (childTexts rows[i]).any (fun op => op.isSome) = true := by
  rw [rowSum, offsetsOf_getD rows (by omega), offsetsOf_getD rows (by omega),
    csum_sub_pos_iff]
  have hseg := flatten_segment_any Option.isSome (rows.map childTexts) i
    (by simpa using hi)
  rw [List.getD_eq_getElem _ _ (by simpa using hi), List.getElem_map] at hseg
  have h1 : flatTexts (rows.take i) = ((rows.map childTexts).take i).flatten := by
    rw [flatTexts, List.map_take]
  have h2 : flatTexts (rows.take (i + 1))
      = ((rows.map childTexts).take (i + 1)).flatten := by
    rw [flatTexts, List.map_take]
  have h3 : textValidOf rows
      = ((rows.map childTexts).flatten).map Option.isSome := rfl
  rw [h1, h2, h3]
  exact hseg

/-- C2: on every nested batch, the vectorized existence evaluation
(flatten, flat validity, exclusive prefix sum, per-row range sums, AND with
list validity) returns, element for element, the same boolean vector as the
scalar per-row reference loop of count.py / count_st.py. -/
theorem vectorized_matches_scalar (rows : List OpinionRow) :
    hasValidOpinionText (listValidOf rows) (offsetsOf rows) (textValidOf rows)
      = rows.map scalarHasOpinion := by
  have hlv : (listValidOf rows).length = rows.length := by
    simp [listValidOf]
  apply List.ext_getElem
  · rw [hasValidOpinionText_length, hlv, List.length_map]
  · intro i h1 h2
    have hi : i < rows.length := by
      rw [hasValidOpinionText_length, hlv] at h1; exact h1
    rw [← List.getD_eq_getElem _ false h1,
      hasValidOpinionText_getD _ _ _ (by rw [hlv]; exact hi),
      List.getElem_map, scalarHasOpinion_eq]
    have hlvi : (listValidOf rows).getD i false = (rows[i]).isSome := by
      rw [listValidOf, List.getD_eq_getElem _ _ (by simpa using hi),
        List.getElem_map]
    rw [hlvi]
    congr 1
    cases hb : (childTexts rows[i]).any (fun op => op.isSome) with
    | false =>
      refine decide_eq_false (fun hP => ?_)
      have := (rowSum_pos_iff rows hi).mp hP
      rw [hb] at this
      exact Bool.false_ne_true this
    | true => exact decide_eq_true ((rowSum_pos_iff rows hi).mpr hb)

/-! ## Counter invariants of the scan loop -/

theorem applyMask_length_le {α : Type} (rows : List α)
    (m : Option (List (Option Bool))) :
    (applyMask rows m).length ≤ rows.length := by
  cases m with
  | none => exact Nat.le_refl _
  | some mv =>
    calc (applyMask rows (some mv)).length
        = ((rows.zip mv).filter (fun rm => rm.2 == some true)).length := by
          rw [applyMask, List.length_map]
      _ ≤ (rows.zip mv).length := List.length_filter_le _ _
      _ ≤ rows.length := by rw [List.length_zip]; omega

theorem survivors_length_le {α : Type} (m : Option (List (Option Bool)))
    (hasOp : Bool) (check : α → Bool) (batch : List α) :
    (survivors m hasOp check batch).length ≤ batch.length := by
  rw [survivors]
  cases hasOp with
  | false => exact applyMask_length_le batch m
  | true =>
    exact Nat.le_trans (List.length_filter_le _ _) (applyMask_length_le batch m)

theorem foldl_stepCount_invariant {α : Type}
    (m : List α → Option (List (Option Bool))) (hasOp : Bool)
    (check : α → Bool) :
    ∀ (bs : List (List α)) (s : ScanState), s.matched ≤ s.scanned →
      (bs.foldl (stepCount m hasOp check) s).matched
        ≤ (bs.foldl (stepCount m hasOp check) s).scanned := by
  intro bs
  induction bs with
  | nil => intro s h; exact h
  | cons b t ih =>
    intro s h
    refine ih _ ?_
    have hs := survivors_length_le (m b) hasOp check b
    simp only [stepCount]
    omega

theorem foldl_stepCount_scanned_mono {α : Type}
    (m : List α → Option (List (Option Bool))) (hasOp : Bool)
    (check : α → Bool) :
    ∀ (bs : List (List α)) (s : ScanState),
      s.scanned ≤ (bs.foldl (stepCount m hasOp check) s).scanned := by
  intro bs
  induction bs with
  | nil => intro s; exact Nat.le_refl _
  | cons b t ih =>
    intro s
    refine Nat.le_trans ?_ (ih _)
    simp only [stepCount]
    omega

/-- C3: after processing any prefix of the batches, the accumulator of
count.py satisfies matched <= scanned (both are naturals, hence
non-negative), and the scanned counter never decreases from one batch step
to the next. -/
theorem scan_counters_invariant {α : Type}
    (m : List α → Option (List (Option Bool))) (hasOp : Bool)
    (check : α → Bool) (batches : List (List α)) (k : Nat) :
    (runCount m hasOp check (batches.take k)).matched
        ≤ (runCount m hasOp check (batches.take k)).scanned ∧
      (runCount m hasOp check (batches.take k)).scanned
        ≤ (runCount m hasOp check (batches.take (k + 1))).scanned := by
  constructor
  · exact foldl_stepCount_invariant m hasOp check _ _ (Nat.le_refl 0)
  · rw [runCount, runCount, List.take_succ, List.foldl_append]
    exact foldl_stepCount_scanned_mono m hasOp check _ _

/-! ## Order independence of mask composition -/

theorem zipWith_optAnd_maps {α : Type} (g q : α → Option Bool)
    (rows : List α) :
    List.zipWith optAnd (rows.map g) (rows.map q)
      = rows.map (fun r => optAnd (g r) (q r)) := by
  induction rows with
  | nil => rfl
  | cons r t ih => simp only [List.map_cons, List.zipWith_cons_cons, ih]

theorem combinedMask_foldl_pointwise {α : Type}
    (ps : List (α → Option Bool)) (g : α → Option Bool) (rows : List α) :
    ps.foldl (fun acc q => List.zipWith optAnd acc (rows.map q)) (rows.map g)
      = rows.map (fun r => ps.foldl (fun b q => optAnd b (q r)) (g r)) := by
  induction ps generalizing g with
  | nil => rfl
  | cons q t ih =>
    simp only [List.foldl_cons]
    rw [zipWith_optAnd_maps, ih]

theorem foldl_optAnd_some_true (e : Option Bool) (es : List (Option Bool)) :
    (e :: es).foldl optAnd (some true) = es.foldl optAnd e := by
  simp only [List.foldl_cons]
  congr 1
  cases e with
  | none => rfl
  | some b => simp [optAnd]

theorem foldl_optAnd_app {α : Type} (ps : List (α → Option Bool))
    (e : Option Bool) (r : α) :
    ps.foldl (fun b q => optAnd b (q r)) e
      = (ps.map (fun q => q r)).foldl optAnd e := by
  induction ps generalizing e with
  | nil => rfl
  | cons q t ih => simp only [List.map_cons, List.foldl_cons, ih]

theorem optAnd_right_comm (x y z : Option Bool) :
    optAnd (optAnd z x) y = optAnd (optAnd z y) x := by
  cases x <;> cases y <;> cases z <;> simp [optAnd, Bool.and_comm,
    Bool.and_assoc, Bool.and_left_comm]

/-- C5: the combined mask of a batch is invariant under any permutation of
the predicate list: evaluating each predicate independently and conjoining
with pc.and_ yields an identical mask in any order. -/
theorem mask_perm_invariant {α : Type} (preds preds' : List (α → Option Bool))
    (hperm : preds.Perm preds') (rows : List α) :
    combinedMask preds rows = combinedMask preds' rows := by
  cases preds with
  | nil =>
    have h : preds' = [] := hperm.symm.eq_nil
    rw [h]
  | cons p ps =>
    cases preds' with
    | nil => exact absurd hperm.eq_nil (by simp)
    | cons p' ps' =>
      rw [combinedMask, combinedMask, combinedMask_foldl_pointwise,
        combinedMask_foldl_pointwise]
      congr 1
      have hfun : (fun r => List.foldl (fun b q => optAnd b (q r)) (p r) ps)
          = (fun r => List.foldl (fun b q => optAnd b (q r)) (p' r) ps') := by
        funext r
        rw [foldl_optAnd_app, foldl_optAnd_app]
        conv_lhs => rw [← foldl_optAnd_some_true]
        conv_rhs => rw [← foldl_optAnd_some_true]
        have h := (hperm.map (fun q => q r)).foldl_eq'
          (fun x _ y _ z => optAnd_right_comm x y z) (some true)
        simpa using h
      rw [hfun]

theorem mask_perm_invariant_witness :
    combinedMask [fun n : Nat => some (decide (0 < n)), fun _ : Nat => some true]
        [0, 1, 2]
      = combinedMask
        [fun _ : Nat => some true, fun n : Nat => some (decide (0 < n))]
        [0, 1, 2] :=
  mask_perm_invariant _ _ (List.Perm.swap _ _ _) [0, 1, 2]

/-! ## The range predicate's date fallback -/

/-- C4: a range predicate whose operand parses as an ISO calendar date is
evaluated as a date comparison (the is_valid AND greater_equal branch);
any other operand silently falls back to raw-text comparison; both cases
are ordinary branches of a total function, never an error.  A well-formed
date and a non-date operand exercise the two branches. -/
theorem gte_date_fallback :
    (∀ (cell : Option CellVal) (v : String),
        (∃ d, parseIsoDate v = some d ∧ gteCondEntry cell v = dateBranch cell d)
        ∨ (parseIsoDate v = none ∧ gteCondEntry cell v = textBranch cell v))
    ∧ parseIsoDate "2001-01-01" = some ⟨2001, 1, 1⟩
    ∧ parseIsoDate "not-a-date" = none := by
  refine ⟨?_, by decide, by decide⟩
  intro cell v
  cases h : parseIsoDate v with
  | some d => exact Or.inl ⟨d, rfl, by rw [gteCondEntry, h]⟩
  | none => exact Or.inr ⟨rfl, by rw [gteCondEntry, h]⟩

/-- C10: a row whose cell is null never survives the >= predicate: its
mask entry is null in the date branch (is_valid AND a null comparison) and
null in the text branch (null comparison), and table.filter keeps only
rows whose entry is true, so every survivor has a non-null cell. -/
theorem gte_null_never_survives :
    (∀ d : CalDate, dateBranch none d = none)
    ∧ (∀ v : String, textBranch none v = none)
    ∧ (∀ (cells : List (Option CellVal)) (v : String) (c : Option CellVal),
        c ∈ filterGte cells v → c.isSome = true) := by
  refine ⟨fun d => rfl, fun v => rfl, ?_⟩
  intro cells v c hc
  rw [filterGte] at hc
  have hm := List.of_mem_filter hc
  cases c with
  | some x => rfl
  | none =>
    exfalso
    have h0 : gteCondEntry none v = none := by
      rw [gteCondEntry]
      cases parseIsoDate v <;> rfl
    rw [h0] at hm
    simp at hm

theorem gte_null_never_survives_witness :
    (some (CellVal.dateV ⟨2002, 1, 1⟩)).isSome = true :=
  gte_null_never_survives.2.2 [none, some (CellVal.dateV ⟨2002, 1, 1⟩)]
    "2001-01-01" (some (CellVal.dateV ⟨2002, 1, 1⟩)) (by decide)

/-! ## Lazy opening of the output sink -/

theorem sinkStep_of_empty {β σ α : Type} (surv : β → List α)
    (schemaOf : β → σ) (st : SinkState σ α) (b : β)
    (hb : (surv b).isEmpty = true) :
    sinkStep surv schemaOf st b = st := by
  simp [sinkStep, hb]

theorem sinkStep_writer_persists {β σ α : Type} (surv : β → List α)
    (schemaOf : β → σ) (st : SinkState σ α) (sch : σ)
    (h : st.writer = some sch) (b : β) :
    (sinkStep surv schemaOf st b).writer = some sch := by
  simp only [sinkStep]
  split
  · exact h
  · rw [h]

theorem foldl_sink_writer_persists {β σ α : Type} (surv : β → List α)
    (schemaOf : β → σ) (sch : σ) :
    ∀ (bs : List β) (st : SinkState σ α), st.writer = some sch →
      (bs.foldl (sinkStep surv schemaOf) st).writer = some sch := by
  intro bs
  induction bs with
  | nil => intro st h; exact h
  | cons b t ih =>
    intro st h
    exact ih _ (sinkStep_writer_persists surv schemaOf st sch h b)

theorem foldl_sink_all_empty {β σ α : Type} (surv : β → List α)
    (schemaOf : β → σ) :
    ∀ (bs : List β) (st : SinkState σ α),
      (∀ b ∈ bs, (surv b).isEmpty = true) →
      bs.foldl (sinkStep surv schemaOf) st = st := by
  intro bs
  induction bs with
  | nil => intro st _; rfl
  | cons b t ih =>
    intro st h
    rw [List.foldl_cons,
      sinkStep_of_empty surv schemaOf st b (h b (List.mem_cons_self b t))]
    exact ih st (fun x hx => h x (List.mem_cons_of_mem b hx))

theorem sinkStep_written {β σ α : Type} (surv : β → List α)
    (schemaOf : β → σ) (st : SinkState σ α) (b : β) :
    (sinkStep surv schemaOf st b).written
      = st.written ++ (if (surv b).isEmpty then [] else [surv b]) := by
  simp only [sinkStep]
  split
  · simp
  · cases st.writer <;> simp

theorem foldl_sink_written {β σ α : Type} (surv : β → List α)
    (schemaOf : β → σ) :
    ∀ (bs : List β) (st : SinkState σ α),
      (bs.foldl (sinkStep surv schemaOf) st).written
        = st.written ++ (bs.filter (fun b => !(surv b).isEmpty)).map surv := by
  intro bs
  induction bs with
  | nil => intro st; simp
  | cons b t ih =>
    intro st
    rw [List.foldl_cons, ih, sinkStep_written, List.filter_cons]
    cases hb : (surv b).isEmpty <;> simp [hb]

/-- C6: the sink stays Uninitialized while every batch's surviving subset
is empty (so a run with no survivors creates no output file); on the first
batch with survivors it opens once, fixing that batch's schema, which
every later step preserves; and the appended batches are exactly the
non-empty surviving subsets, in order, with no schema re-derivation. -/
theorem sink_lazy_open {β σ α : Type} (surv : β → List α)
    (schemaOf : β → σ) :
    (∀ bs : List β, (∀ b ∈ bs, (surv b).isEmpty = true) →
        runSink surv schemaOf bs = ⟨none, []⟩)
    ∧ (∀ (bs₁ : List β) (b : β) (bs₂ : List β),
        (∀ x ∈ bs₁, (surv x).isEmpty = true) → (surv b).isEmpty = false →
        (runSink surv schemaOf (bs₁ ++ b :: bs₂)).writer
          = some (schemaOf b))
    ∧ (∀ bs : List β,
        (runSink surv schemaOf bs).written
          = (bs.filter (fun b => !(surv b).isEmpty)).map surv) := by
  refine ⟨?_, ?_, ?_⟩
  · intro bs h
    exact foldl_sink_all_empty surv schemaOf bs ⟨none, []⟩ h
  · intro bs₁ b bs₂ h1 hb
    rw [runSink, List.foldl_append,
      foldl_sink_all_empty surv schemaOf bs₁ ⟨none, []⟩ h1, List.foldl_cons]
    refine foldl_sink_writer_persists surv schemaOf _ bs₂ _ ?_
    simp [sinkStep, hb]
  · intro bs
    rw [runSink, foldl_sink_written]
    rfl

theorem sink_lazy_open_witness :
    (runSink (fun b : List Nat => b) List.length
        [[], [5, 6], [7]]).writer = some 2 :=
  (sink_lazy_open (fun b : List Nat => b) List.length).2.1
    [[]] [5, 6] [[7]] (by decide) (by decide)

/-! ## Finalization: stable descending sort of the histograms -/

theorem insertDesc_perm (a : String × Nat) (l : List (String × Nat)) :
    (insertDesc a l).Perm (a :: l) := by
  induction l with
  | nil => exact List.Perm.refl _
  | cons b t ih =>
    rw [insertDesc]
    split
    · exact (ih.cons b).trans (List.Perm.swap a b t)
    · exact List.Perm.refl _

theorem insertDesc_pairwise (a : String × Nat) (l : List (String × Nat))
    (h : List.Pairwise (fun x y => y.2 ≤ x.2) l) :
    List.Pairwise (fun x y => y.2 ≤ x.2) (insertDesc a l) := by
  induction l with
  | nil => simp [insertDesc]
  | cons b t ih =>
    rw [List.pairwise_cons] at h
    obtain ⟨hb, ht⟩ := h
    rw [insertDesc]
    split
    · rename_i hab
      rw [List.pairwise_cons]
      refine ⟨?_, ih ht⟩
      intro x hx
      rcases List.mem_cons.mp ((insertDesc_perm a t).mem_iff.mp hx) with h | h
      · subst h; exact Nat.le_of_lt hab
      · exact hb x h
    · rename_i hab
      rw [List.pairwise_cons]
      refine ⟨?_, List.pairwise_cons.mpr ⟨hb, ht⟩⟩
      intro x hx
      rcases List.mem_cons.mp hx with h | h
      · subst h; omega
      · exact Nat.le_trans (hb x h) (by omega)

theorem insertDesc_filter_of_ne (a : String × Nat) (l : List (String × Nat))
    (k : Nat) (hk : (a.2 == k) = false) :
    (insertDesc a l).filter (fun x => x.2 == k)
      = l.filter (fun x => x.2 == k) := by
  induction l with
  | nil => simp [insertDesc, hk]
  | cons b t ih =>
    rw [insertDesc]
    split
    · simp only [List.filter_cons, ih]
    · simp [List.filter_cons, hk]

theorem insertDesc_filter_of_eq (a : String × Nat) (l : List (String × Nat))
    (k : Nat) (hk : (a.2 == k) = true) :
    (insertDesc a l).filter (fun x => x.2 == k)
      = a :: l.filter (fun x => x.2 == k) := by
  induction l with
  | nil => simp [insertDesc, hk]
  | cons b t ih =>
    rw [insertDesc]
    split
    · rename_i hab
      have hak : a.2 = k := by simpa using hk
      have hbk : (b.2 == k) = false := by
        have hne : b.2 ≠ k := by omega
        simpa using hne
      simp only [List.filter_cons, hbk, Bool.false_eq_true, if_false, ih]
    · simp [List.filter_cons, hk]

theorem sortCountsDesc_sorted (l : List (String × Nat)) :
    List.Pairwise (fun x y => y.2 ≤ x.2) (sortCountsDesc l) := by
  induction l with
  | nil => exact List.Pairwise.nil
  | cons a t ih => exact insertDesc_pairwise a (sortCountsDesc t) ih

theorem sortCountsDesc_perm (l : List (String × Nat)) :
    (sortCountsDesc l).Perm l := by
  induction l with
  | nil => exact List.Perm.refl _
  | cons a t ih => exact (insertDesc_perm a (sortCountsDesc t)).trans (ih.cons a)

/-- C7: finalization sorts each histogram so that counts are descending,
the output is a rearrangement of the histogram, and for every fixed count
the entries carrying that count appear in exactly their histogram
(first-insertion) order - the tie order is positional, never derived from
the values. -/
theorem finalize_sorted_stable (h : List (String × Nat)) :
    List.Pairwise (fun x y => y.2 ≤ x.2) (sortCountsDesc h)
    ∧ (sortCountsDesc h).Perm h
    ∧ ∀ k, (sortCountsDesc h).filter (fun x => x.2 == k)
        = h.filter (fun x => x.2 == k) := by
  refine ⟨sortCountsDesc_sorted h, sortCountsDesc_perm h, ?_⟩
  intro k
  induction h with
  | nil => rfl
  | cons a t ih =>
    show (insertDesc a (sortCountsDesc t)).filter (fun x => x.2 == k)
      = (a :: t).filter (fun x => x.2 == k)
    cases hak : (a.2 == k) with
    | false =>
      rw [insertDesc_filter_of_ne a (sortCountsDesc t) k hak, ih]
      simp [List.filter_cons, hak]
    | true =>
      rw [insertDesc_filter_of_eq a (sortCountsDesc t) k hak, ih]
      simp [List.filter_cons, hak]

/-! ## Histogram accumulation -/

theorem lookupCount_bump_self (h : List (String × Nat)) (k : String) :
    lookupCount (bump h k) k = lookupCount h k + 1 := by
  induction h with
  | nil => simp [bump, lookupCount]
  | cons p t ih =>
    obtain ⟨k', c⟩ := p
    rw [bump]
    split
    · rename_i heq
      subst heq
      simp [lookupCount, List.filter_cons]
      omega
    · rename_i hne
      have hbe : (k' == k) = false := by simpa using hne
      simp only [lookupCount, List.filter_cons, hbe, Bool.false_eq_true,
        if_false] at ih ⊢
      exact ih

theorem lookupCount_bump_ne (h : List (String × Nat)) (k k' : String)
    (hne : k' ≠ k) : lookupCount (bump h k') k = lookupCount h k := by
  induction h with
  | nil =>
    have hbe : (k' == k) = false := by simpa using hne
    simp [bump, lookupCount, hbe]
  | cons p t ih =>
    obtain ⟨k0, c⟩ := p
    rw [bump]
    split
    · rename_i heq
      subst heq
      have hbe : (k0 == k) = false := by simpa using hne
      simp [lookupCount, List.filter_cons, hbe]
    · simp only [lookupCount, List.filter_cons] at ih ⊢
      cases hb : (k0 == k) <;> simp [hb, ih]

/-- C8: accumulating a batch's surviving values adds, for every key k,
exactly one count per surviving row whose text rendering is k; a null
value renders to the literal sentinel "None", so null rows are counted
under that single key instead of being skipped or raising. -/
theorem groupby_histogram_counts :
    (∀ (h : List (String × Nat)) (vs : List (Option String)) (k : String),
        lookupCount (accumulate h vs) k
          = lookupCount h k + (vs.filter (fun v => render v == k)).length)
    ∧ render none = "None" := by
  refine ⟨?_, rfl⟩
  intro h vs
  induction vs generalizing h with
  | nil => intro k; simp [accumulate]
  | cons v t ih =>
    intro k
    show lookupCount (accumulate (bump h (render v)) t) k = _
    rw [ih, List.filter_cons]
    cases hv : (render v == k) with
    | false =>
      have hne : render v ≠ k := by simpa using hv
      rw [lookupCount_bump_ne h k (render v) hne]
      simp
    | true =>
      have heq : render v = k := by simpa using hv
      rw [heq, lookupCount_bump_self h k]
      simp
      omega

/-! ## Argument token classification -/

/-- C9: the parser tests substrings in the order "!=", then ">=", then
"=": the token date_filed>=2001-01-01 becomes a range predicate; and a
token containing "!=" whose right side does not upper-case to NULL is
silently discarded: appended to any argument list it leaves the compiled
FilterSpec unchanged, contributing no predicate and no group-by column. -/
theorem arg_classification :
    parseArg "date_filed>=2001-01-01" = Parsed.gte "date_filed" "2001-01-01"
    ∧ (∀ (arg : String) (k v : List Char),
        arg ≠ "--has-opinion" →
        splitOnFirst ['!', '='] arg.toList = some (k, v) →
        strUpper (String.mk v) ≠ "NULL" →
        parseArg arg = Parsed.discarded)
    ∧ (∀ (args : List String) (arg : String) (k v : List Char),
        arg ≠ "--has-opinion" →
        splitOnFirst ['!', '='] arg.toList = some (k, v) →
        strUpper (String.mk v) ≠ "NULL" →
        parseArgs (args ++ [arg]) = parseArgs args) := by
  have hdisc : ∀ (arg : String) (k v : List Char),
      arg ≠ "--has-opinion" →
      splitOnFirst ['!', '='] arg.toList = some (k, v) →
      strUpper (String.mk v) ≠ "NULL" →
      parseArg arg = Parsed.discarded := by
    intro arg k v h1 h2 h3
    rw [parseArg, if_neg h1, h2]
    show (if strUpper (String.mk v) = "NULL" then Parsed.notNull (String.mk k)
      else Parsed.discarded) = Parsed.discarded
    rw [if_neg h3]
  refine ⟨by decide, hdisc, ?_⟩
  intro args arg k v h1 h2 h3
  rw [parseArgs, parseArgs, List.foldl_append, List.foldl_cons,
    hdisc arg k v h1 h2 h3]
  rfl

theorem arg_classification_witness :
    parseArgs ["court_type=FD", "a!=b"] = parseArgs ["court_type=FD"] :=
  arg_classification.2.2 ["court_type=FD"] "a!=b" ['a'] ['b']
    (by decide) (by decide) (by decide)

end Datathon
